import Mathlib

/-!
Verification development for the federated HDT dataset layer and protocol
server of the `de` repository.  The Rust sources under `src/` are shallowly
embedded: `sparql.rs` (store registry, snapshot construction, dataset
adapter, term conversion), `serve.rs` (update validation/execution and
content negotiation) and `create.rs` (`files_to_rdf`).  File-system state
and external library behaviour (the `hdt` crate's pattern matcher, `oxrdf`
term parsing/printing) are modelled explicitly; each such model is marked
in its doc comment.
-/

namespace De

/-! ## Character-list string utilities

The Rust code manipulates strings with `split`, `split_once`, `rsplit_once`,
`trim`, `starts_with` and substring search.  These are modelled on `List Char`
by structural recursion so that concrete instances evaluate inside the
kernel. -/

/-- Split a character list at every occurrence of `sep`
(models `str::split` for a one-character pattern). -/
def splitChars (sep : Char) : List Char → List (List Char)
  | [] => [[]]
  | c :: t =>
    if c = sep then [] :: splitChars sep t
    else
      match splitChars sep t with
      | [] => [[c]]
      | h :: r => (c :: h) :: r

/-- Split at the first occurrence of `sep` (models `str::split_once`). -/
def splitOnceChars (sep : Char) : List Char → Option (List Char × List Char)
  | [] => none
  | c :: t =>
    if c = sep then some ([], t)
    else (splitOnceChars sep t).map (fun r => (c :: r.1, r.2))

/-- Split at the last occurrence of `sep` (models `str::rsplit_once`). -/
def rsplitOnceChars (sep : Char) (l : List Char) : Option (List Char × List Char) :=
  (splitOnceChars sep l.reverse).map (fun r => (r.2.reverse, r.1.reverse))

/-- Strip leading and trailing whitespace (models `str::trim`). -/
def trimChars (l : List Char) : List Char :=
  ((l.dropWhile Char.isWhitespace).reverse.dropWhile Char.isWhitespace).reverse

/-- Whether `pre` is a prefix of `l` (models `str::starts_with`). -/
def isPre : List Char → List Char → Bool
  | [], _ => true
  | _ :: _, [] => false
  | a :: as_, b :: bs => a == b && isPre as_ bs

/-- Whether `needle` occurs contiguously in `hay` (models `str::contains`). -/
def hasSub : List Char → List Char → Bool
  | [], needle => isPre needle []
  | c :: t, needle => isPre needle (c :: t) || hasSub t needle

/-- Whether `suf` is a suffix of `l` (models `str::ends_with`). -/
def isSuf (suf l : List Char) : Bool :=
  isPre suf.reverse l.reverse

/-- String-level wrapper for substring search. -/
def strContains (hay needle : String) : Bool :=
  hasSub hay.data needle.data

/-! ## Dataset adapter core (`src/sparql.rs`)

A triple as stored by one HDT file: three internal term strings
(`[Arc<str>; 3]` in the Rust code). -/

structure Triple where
  subj : String
  pred : String
  obj : String
deriving DecidableEq, Repr

/-- A quad produced by `internal_quads_for_pattern` (spareval `InternalQuad`
plus the owning graph name). -/
structure InternalQuad where
  subject : String
  predicate : String
  object : String
  graph_name : Option String
deriving DecidableEq, Repr

/-- One HDT store: the multiset of its triples, in file order. -/
abbrev Store := List Triple

/-- `AggregateHdtSnapshot.hdts`: graph name to loaded store.  The Rust
`HashMap` iterates in unspecified order; the model fixes one order. -/
abbrev Snapshot := List (String × Store)

/-- An optional pattern component matches a value iff it is unbound or equal. -/
def matchesOpt (pat : Option String) (v : String) : Bool :=
  match pat with
  | none => true
  | some p => p == v

/-- Models `hdt::Hdt::triples_with_pattern`: the triples of one store whose
bound components equal the pattern. -/
def triples_with_pattern (st : Store) (s p o : Option String) : List Triple :=
  st.filter (fun t => matchesOpt s t.subj && matchesOpt p t.pred && matchesOpt o t.obj)

/-- The graph-scope filter of `internal_quads_for_pattern`:
`none` (unrestricted) and `some none` (default graph, union of all loaded
graphs) keep every graph; `some (some g)` keeps exactly graph `g`. -/
def graphInScope (gf : Option (Option String)) (g : String) : Bool :=
  match gf with
  | some none => true
  | some (some target) => g == target
  | none => true

/-- Tag the matches of one store with its graph name, as the inner closure of
`internal_quads_for_pattern` does. -/
def tagMatches (s p o : Option String) (gs : String × Store) : List InternalQuad :=
  (triples_with_pattern gs.2 s p o).map
    (fun t => { subject := t.subj, predicate := t.pred, object := t.obj,
                graph_name := some gs.1 })

/-- `internal_quads_for_pattern` (sparql.rs): filter the graphs by scope,
collect each store's matches tagged with the owning graph name, flatten. -/
def internal_quads_for_pattern (snap : Snapshot) (s p o : Option String)
    (gf : Option (Option String)) : List InternalQuad :=
  let graphs_to_query := snap.filter (fun gs => graphInScope gf gs.1)
  let iters := graphs_to_query.map (tagMatches s p o)
  iters.flatten

theorem coe_flatten_eq_sum (l : List (List InternalQuad)) :
    Multiset.ofList l.flatten = (l.map Multiset.ofList).sum := by
  induction l with
  | nil => rfl
  | cons h t ih => simp only [List.flatten, List.map, List.sum_cons, ← ih]; rfl

theorem matchesOpt_none (v : String) : matchesOpt none v = true := rfl

theorem triples_with_pattern_unbound (st : Store) :
    triples_with_pattern st none none none = st := by
  simp [triples_with_pattern, matchesOpt]

theorem graphInScope_none (g : String) : graphInScope none g = true := rfl

/-- C1: for every triple pattern (all 8 bound/unbound combinations, via the
`Option` arguments) and every graph scope, `internal_quads_for_pattern`
returns exactly the multiset union of each in-scope store's own matching
triples, each tagged with its owning graph name; and the fully-unbound,
unrestricted lookup returns every triple of every store, its total count
being the sum of the per-store triple counts. -/
theorem internal_quads_for_pattern_exact_union
    (snap : Snapshot) (s p o : Option String) (gf : Option (Option String)) :
    Multiset.ofList (internal_quads_for_pattern snap s p o gf)
        = ((snap.filter (fun gs => graphInScope gf gs.1)).map
            (fun gs => Multiset.ofList (tagMatches s p o gs))).sum
      ∧ (internal_quads_for_pattern snap none none none none).length
        = (snap.map (fun gs => gs.2.length)).sum := by
  constructor
  · rw [internal_quads_for_pattern, coe_flatten_eq_sum, List.map_map]
    rfl
  · rw [internal_quads_for_pattern]
    simp only [graphInScope_none, List.filter_true]
    rw [List.length_flatten, List.map_map]
    congr 1
    apply List.map_congr_left
    intro gs _
    simp [tagMatches, triples_with_pattern_unbound]

/-! ## Store registry (`AggregateHdt`, `src/sparql.rs`)

The registry owns `file_paths : HashMap<String, PathBuf>` (graph name to
backing file path).  The `HashMap` is modelled as an association list with
overwrite-on-insert; the disk is modelled as the list of file paths that
currently exist, so that file deletion is observable. -/

structure RegState where
  mapping : List (String × String)
  disk : List String
deriving DecidableEq, Repr

/-- `HashMap::insert`: overwrite the value when the key is present,
append the entry otherwise. -/
def insertAssoc (m : List (String × String)) (k v : String) : List (String × String) :=
  if m.any (fun e => e.1 == k) then
    m.map (fun e => if e.1 == k then (k, v) else e)
  else
    m ++ [(k, v)]

/-- `AggregateHdt::contains_graph_name`: membership in the name-to-path map. -/
def contains_graph_name (st : RegState) (g : String) : Bool :=
  st.mapping.any (fun e => e.1 == g)

/-- `AggregateHdt::clear`: `file_paths.clear()` — the mapping is emptied and
nothing else is touched. -/
def clear (st : RegState) : RegState :=
  { st with mapping := [] }

/-- The last path component, modelling `std::path::Path::file_name`
(`none` for an empty path or one terminating in `..`). -/
def fileNameOf (p : String) : Option String :=
  match ((splitChars '/' p.data).filter (fun c => !c.isEmpty && c != ['.'])).getLast? with
  | none => none
  | some c => if c == ['.', '.'] then none else some (String.mk c)

/-- Rejoin path components with `/` separators. -/
def joinSlash : List (List Char) → List Char
  | [] => []
  | [x] => x
  | x :: r => x ++ '/' :: joinSlash r

/-- The directory part of a path (everything before the last separator),
modelling `std::path::Path::parent` as a string. -/
def parentDirOf (p : String) : String :=
  String.mk (joinSlash (splitChars '/' p.data).dropLast)

/-- The cache-file test of `remove_named_graph`: an entry of the same
directory whose name starts with the removed file's name and contains
`.index.` or ends with `.cache`. -/
def isCacheFileFor (fname entryName : String) : Bool :=
  isPre fname.data entryName.data
    && (hasSub entryName.data ".index.".data || isSuf ".cache".data entryName.data)

/-- `AggregateHdt::remove_named_graph`: drop the mapping entry, delete the
backing file when it exists, and delete sibling cache files; returns whether
a mapping entry was removed. -/
def remove_named_graph (st : RegState) (g : String) : RegState × Bool :=
  match (st.mapping.find? (fun e => e.1 == g)).map Prod.snd with
  | none => (st, false)
  | some path =>
    let mapping := st.mapping.filter (fun e => e.1 != g)
    let disk := st.disk.filter (fun e => e != path)
    let fname := (fileNameOf path).getD ""
    let parent := parentDirOf path
    let disk := disk.filter (fun e =>
      !(parentDirOf e == parent && isCacheFileFor fname ((fileNameOf e).getD "")))
    ({ mapping := mapping, disk := disk }, true)

/-- C8: `clear()` only empties the graph-name-to-file-path mapping — afterwards
`contains_graph_name` is false for every graph name — and, unlike
`remove_named_graph`, it deletes nothing from disk: the disk component of the
state is unchanged. -/
theorem clear_empties_mapping_only (st : RegState) (g : String) :
    contains_graph_name (clear st) g = false
      ∧ (clear st).disk = st.disk
      ∧ (clear st).mapping = [] := by
  refine ⟨?_, rfl, rfl⟩
  simp [contains_graph_name, clear]

/-- `AggregateHdt::new` inner loop: check each path exists, derive the graph
name `file:///<file name>` and insert it; `pathExists` models the file
system's `Path::exists`. -/
def aggregateNewGo (pathExists : String → Bool) :
    List (String × String) → List String → Except String (List (String × String))
  | m, [] => .ok m
  | m, p :: rest =>
    if !pathExists p then
      .error ("HDT file does not exist: " ++ p)
    else
      match fileNameOf p with
      | none => .error ("Invalid file path: " ++ p)
      | some n => aggregateNewGo pathExists (insertAssoc m ("file:///" ++ n) p) rest

/-- `AggregateHdt::new`: fails on an empty path list, otherwise registers
every path under its derived graph name. -/
def AggregateHdt_new (pathExists : String → Bool) (paths : List String) :
    Except String (List (String × String)) :=
  if paths.isEmpty then .error "no hdt files detected"
  else aggregateNewGo pathExists [] paths

theorem insertAssoc_nil_length (k v : String) :
    (insertAssoc [] k v).length = 1 := rfl

theorem insertAssoc_length_ge (m : List (String × String)) (k v : String) :
    m.length ≤ (insertAssoc m k v).length := by
  rw [insertAssoc]
  split
  · rw [List.length_map]
  · simp

theorem aggregateNewGo_length_ge (pathExists : String → Bool) :
    ∀ (ps : List String) (m r : List (String × String)),
      aggregateNewGo pathExists m ps = .ok r → m.length ≤ r.length := by
  intro ps
  induction ps with
  | nil =>
    intro m r h
    simp only [aggregateNewGo] at h
    cases h
    exact le_refl _
  | cons p rest ih =>
    intro m r h
    simp only [aggregateNewGo] at h
    split at h
    · cases h
    · split at h
      · cases h
      · exact le_trans (insertAssoc_length_ge _ _ _) (ih _ _ h)

/-- C9: constructing the registry from an empty path list always fails with
an error, and every successfully constructed registry holds at least one
registered graph. -/
theorem aggregateHdt_new_nonempty (pathExists : String → Bool) :
    AggregateHdt_new pathExists [] = .error "no hdt files detected"
      ∧ ∀ (paths : List String) (reg : List (String × String)),
          AggregateHdt_new pathExists paths = .ok reg → 1 ≤ reg.length := by
  refine ⟨rfl, ?_⟩
  intro paths reg h
  rw [AggregateHdt_new] at h
  split at h
  · cases h
  · rename_i hne
    cases paths with
    | nil => simp at hne
    | cons p rest =>
      simp only [aggregateNewGo] at h
      split at h
      · cases h
      · split at h
        · cases h
        · have h2 := aggregateNewGo_length_ge pathExists rest _ _ h
          rw [insertAssoc_nil_length] at h2
          exact h2

/-- C9 witness: the constructor rejects the empty list, and a one-path
registry indeed contains one graph. -/
theorem aggregateHdt_new_nonempty_witness :
    AggregateHdt_new (fun _ => true) [] = .error "no hdt files detected"
      ∧ 1 ≤ [("file:///test.hdt", "/data/test.hdt")].length := by
  refine ⟨(aggregateHdt_new_nonempty (fun _ => true)).1, ?_⟩
  exact (aggregateHdt_new_nonempty (fun _ => true)).2 ["/data/test.hdt"]
    [("file:///test.hdt", "/data/test.hdt")] rfl

/-! ## Snapshot construction (`AggregateHdt::get_snapshot`, `src/sparql.rs`)

The file system is modelled per path: missing (so `File::open` fails),
corrupt (so `hdt::Hdt::read` fails with a message), or good (holding a
store).  Note that in the Rust code `File::open(path)?` propagates the bare
`io::Error`, whose display does not mention the path; only the
`Hdt::read` failure is wrapped with `Failed to load HDT from {path}`. -/

inductive FileState where
  | missing
  | corrupt (msg : String)
  | good (st : Store)
deriving DecidableEq, Repr

/-- One file load of the snapshot builder: `File::open` then `Hdt::read`.
The missing-file error is the operating system's message (no path);
the parse error is wrapped with the path by the `map_err` in the source. -/
def loadHdt (fs : String → FileState) (path : String) : Except String Store :=
  match fs path with
  | .missing => .error "No such file or directory (os error 2)"
  | .corrupt e => .error ("Failed to load HDT from \"" ++ path ++ "\": " ++ e)
  | .good st => .ok st

/-- The graph filter of `get_snapshot`: keep an entry when no filter is given
or its graph name occurs in the filter list. -/
def scopedEntries (reg : List (String × String)) (gfilter : Option (List String)) :
    List (String × String) :=
  reg.filter (fun e =>
    match gfilter with
    | some f => f.contains e.1
    | none => true)

/-- Load every scoped entry; the first failure aborts the whole build
(models collecting `anyhow::Result` from the parallel loads — which of
several failures is reported is unspecified in Rust; the model reports the
first in registry order). -/
def snapGo (fs : String → FileState) : List (String × String) → Except String Snapshot
  | [] => .ok []
  | e :: rest =>
    match loadHdt fs e.2 with
    | .error err => .error err
    | .ok st =>
      match snapGo fs rest with
      | .error err => .error err
      | .ok snap => .ok ((e.1, st) :: snap)

/-- `AggregateHdt::get_snapshot`: filter the registered graphs, then load
each backing file; all-or-nothing. -/
def get_snapshot (fs : String → FileState) (reg : List (String × String))
    (gfilter : Option (List String)) : Except String Snapshot :=
  snapGo fs (scopedEntries reg gfilter)

theorem isPre_self_append (l r : List Char) : isPre l (l ++ r) = true := by
  induction l with
  | nil => rfl
  | cons c t ih => simp [isPre, ih]

theorem hasSub_of_isPre (hay needle : List Char) (h : isPre needle hay = true) :
    hasSub hay needle = true := by
  cases hay with
  | nil => exact h
  | cons c t => simp [hasSub, h]

theorem hasSub_append_middle (x y z : List Char) :
    hasSub (x ++ (y ++ z)) y = true := by
  induction x with
  | nil => exact hasSub_of_isPre _ _ (isPre_self_append y z)
  | cons c t ih => simp [hasSub, ih]

theorem snapGo_all_good (fs : String → FileState) :
    ∀ entries : List (String × String),
      (∀ e ∈ entries, ∃ st, fs e.2 = .good st) →
      ∃ snap, snapGo fs entries = .ok snap ∧ snap.map Prod.fst = entries.map Prod.fst := by
  intro entries
  induction entries with
  | nil => intro _; exact ⟨[], rfl, rfl⟩
  | cons e rest ih =>
    intro hall
    obtain ⟨st, hst⟩ := hall e (List.mem_cons_self e rest)
    obtain ⟨snap, hsnap, hnames⟩ := ih (fun x hx => hall x (List.mem_cons_of_mem e hx))
    refine ⟨(e.1, st) :: snap, ?_, ?_⟩
    · rw [snapGo, loadHdt, hst, hsnap]
    · simp [hnames]

theorem snapGo_fails_of_bad (fs : String → FileState) :
    ∀ entries : List (String × String),
      (∃ e ∈ entries, ∀ st, fs e.2 ≠ .good st) →
      ∃ msg, snapGo fs entries = .error msg := by
  intro entries
  induction entries with
  | nil => rintro ⟨e, he, _⟩; cases he
  | cons e rest ih =>
    rintro ⟨x, hx, hbad⟩
    rw [snapGo]
    cases hload : loadHdt fs e.2 with
    | error err => exact ⟨err, rfl⟩
    | ok st =>
      rcases List.mem_cons.mp hx with heq | hmem
      · subst heq
        rw [loadHdt] at hload
        cases hfs : fs x.2 with
        | missing => rw [hfs] at hload; cases hload
        | corrupt m => rw [hfs] at hload; cases hload
        | good s => exact absurd hfs (hbad s)
      · obtain ⟨msg, hmsg⟩ := ih ⟨x, hmem, hbad⟩
        rw [hmsg]
        exact ⟨msg, rfl⟩

/-- C4 counterexample: with one registered store whose backing file is
missing, the build fails with the bare operating-system error, which does
not name the offending path — the claimed "error naming the offending path"
is false for open failures. -/
theorem get_snapshot_open_error_lacks_path :
    get_snapshot (fun _ => FileState.missing) [("file:///x.hdt", "/data/x.hdt")] none
        = .error "No such file or directory (os error 2)"
      ∧ strContains "No such file or directory (os error 2)" "/data/x.hdt" = false := by
  exact ⟨rfl, by decide⟩

/-- C4 (amended): snapshot construction is all-or-nothing — any in-scope
load failure makes the whole build fail and no snapshot is returned; a
parse failure produces an error naming the offending path (an open failure
produces only the bare I/O error); and when every registered file loads
with no filter, the snapshot exposes exactly the N registered graphs,
named per registration. -/
theorem get_snapshot_all_or_nothing (fs : String → FileState)
    (reg : List (String × String)) (gfilter : Option (List String)) :
    ((∃ e ∈ scopedEntries reg gfilter, ∀ st, fs e.2 ≠ .good st) →
        ∃ msg, get_snapshot fs reg gfilter = .error msg)
      ∧ (∀ path emsg, fs path = .corrupt emsg →
          ∃ msg, loadHdt fs path = .error msg ∧ strContains msg path = true)
      ∧ ((∀ e ∈ reg, ∃ st, fs e.2 = .good st) →
          ∃ snap, get_snapshot fs reg none = .ok snap
            ∧ snap.map Prod.fst = reg.map Prod.fst
            ∧ snap.length = reg.length) := by
  refine ⟨?_, ?_, ?_⟩
  · intro hbad
    exact snapGo_fails_of_bad fs _ hbad
  · intro path emsg hfs
    refine ⟨"Failed to load HDT from \"" ++ path ++ "\": " ++ emsg, ?_, ?_⟩
    · rw [loadHdt, hfs]
    · have hdata : ("Failed to load HDT from \"" ++ path ++ "\": " ++ emsg).data
          = "Failed to load HDT from \"".data ++ (path.data ++ ("\": " ++ emsg).data) := by
        simp [String.data_append]
      rw [strContains, hdata]
      exact hasSub_append_middle "Failed to load HDT from \"".data path.data
        ("\": " ++ emsg).data
  · intro hall
    have hsc : scopedEntries reg none = reg := by
      simp [scopedEntries]
    obtain ⟨snap, hsnap, hnames⟩ := snapGo_all_good fs reg hall
    refine ⟨snap, by rw [get_snapshot, hsc]; exact hsnap, hnames, ?_⟩
    have := congrArg List.length hnames
    simpa using this

/-- A file system with one corrupt store file, for the C4 witness. -/
def fsW : String → FileState :=
  fun p => if p = "/bad.hdt" then .corrupt "boom" else .good []

/-- C4 witness: a corrupt in-scope file fails the build; the parse error
names the path; a fully-good registry yields a snapshot of the right shape. -/
theorem get_snapshot_all_or_nothing_witness :
    (∃ msg, get_snapshot fsW [("g", "/bad.hdt")] none = .error msg)
      ∧ (∃ msg, loadHdt fsW "/bad.hdt" = .error msg
          ∧ strContains msg "/bad.hdt" = true)
      ∧ (∃ snap, get_snapshot fsW [("file:///a.hdt", "/a.hdt")] none = .ok snap
          ∧ snap.map Prod.fst = [("file:///a.hdt", "/a.hdt")].map Prod.fst
          ∧ snap.length = [("file:///a.hdt", "/a.hdt")].length) := by
  refine ⟨?_, ?_, ?_⟩
  · exact (get_snapshot_all_or_nothing fsW [("g", "/bad.hdt")] none).1
      ⟨("g", "/bad.hdt"), by decide, by
        intro st h
        rw [show fsW "/bad.hdt" = .corrupt "boom" from rfl] at h
        cases h⟩
  · exact (get_snapshot_all_or_nothing fsW [("g", "/bad.hdt")] none).2.1
      "/bad.hdt" "boom" rfl
  · exact (get_snapshot_all_or_nothing fsW [("file:///a.hdt", "/a.hdt")] none).2.2
      (by
        intro e he
        rw [List.mem_singleton] at he
        subst he
        exact ⟨[], rfl⟩)

/-! ## Term conversion (`src/sparql.rs`, `term_to_hdt_bgp_str` /
`hdt_bgp_str_to_term`)

RDF terms and their N-Triples string form.  The repository code dispatches
on the first character and delegates to the `oxrdf` crate
(`Term::from_str`, `BlankNode::from_str`, `NamedNode::new`, and the
`Display` implementations); those library functions are modelled here with
conservative validity predicates: every string the models accept is also
accepted by `oxrdf`, and on the common ASCII forms the behaviour
coincides. -/

/-- The kind of a `std::io::Error`; the conversion code only ever
constructs `InvalidData`, other kinds exist elsewhere in the crate. -/
inductive IoErrorKind where
  | invalidData
  | notFound
  | other
deriving DecidableEq, Repr

structure IoError where
  kind : IoErrorKind
  msg : String
deriving DecidableEq, Repr

def xsdString : String := "http://www.w3.org/2001/XMLSchema#string"

/-- The shape of an `oxrdf` literal: simple, language-tagged, or typed with
a datatype other than `xsd:string` (`oxrdf` normalizes an `xsd:string`
datatype away, so the representation is canonical). -/
inductive LitSuffix where
  | plain
  | lang (tag : String)
  | typed (dt : String)
deriving DecidableEq, Repr

/-- `spargebra::term::Term` restricted to the cases the adapter handles:
URI, blank node, literal. -/
inductive Term where
  | namedNode (iri : String)
  | blankNode (id : String)
  | literal (value : String) (suffix : LitSuffix)
deriving DecidableEq, Repr

/-- N-Triples escaping of one literal character, as `oxrdf`'s quoted-string
printer performs it. -/
def escChar (c : Char) : List Char :=
  if c = '\\' then ['\\', '\\']
  else if c = '"' then ['\\', '"']
  else if c = '\n' then ['\\', 'n']
  else if c = '\r' then ['\\', 'r']
  else [c]

def escapeChars : List Char → List Char
  | [] => []
  | c :: t => escChar c ++ escapeChars t

/-- The characters printed after the closing quote of a literal. -/
def suffixChars : LitSuffix → List Char
  | .plain => []
  | .lang t => '@' :: t.data
  | .typed dt => '^' :: '^' :: '<' :: (dt.data ++ ['>'])

/-- `oxrdf::Literal`'s `Display`: quoted escaped value plus the optional
language tag or datatype suffix. -/
def literalToString (value : String) (sfx : LitSuffix) : String :=
  String.mk ('"' :: (escapeChars value.data ++ '"' :: suffixChars sfx))

/-- `term_to_hdt_bgp_str` (sparql.rs): URI string as-is
(`NamedNode::into_string`), literal via `Display`, blank node as `_:id`. -/
def term_to_hdt_bgp_str : Term → String
  | .namedNode iri => iri
  | .literal v sfx => literalToString v sfx
  | .blankNode id => String.mk ('_' :: ':' :: id.data)

/-- The escape codes `oxrdf`'s N-Triples term parser accepts
(`\uXXXX` forms are not modelled; the printer never emits them). -/
def decodeEscape (c : Char) : Option Char :=
  if c = 't' then some '\t'
  else if c = 'b' then some (Char.ofNat 8)
  else if c = 'n' then some '\n'
  else if c = 'f' then some (Char.ofNat 12)
  else if c = 'r' then some '\r'
  else if c = '"' then some '"'
  else if c = '\\' then some '\\'
  else none

/-- Read the body of a quoted literal up to the closing unescaped quote,
returning the unescaped value and the remainder. -/
def readQuoted : List Char → Option (List Char × List Char)
  | [] => none
  | '"' :: t => some ([], t)
  | '\\' :: [] => none
  | '\\' :: e :: t2 =>
    match decodeEscape e with
    | none => none
    | some d => (readQuoted t2).map (fun r => (d :: r.1, r.2))
  | c :: t => (readQuoted t).map (fun r => (c :: r.1, r.2))

/-- A syntactically valid language tag: alphabetic first segment, then
alphanumeric segments separated by hyphens (models `oxrdf`'s check). -/
def validLangTag (t : String) : Bool :=
  match splitChars '-' t.data with
  | [] => false
  | first :: rest =>
    (!first.isEmpty && first.all Char.isAlpha)
      && rest.all (fun seg => !seg.isEmpty && seg.all Char.isAlphanum)

/-- Characters an IRI may contain: above space, excluding
the quote, angle brackets, backslash, caret, backquote, braces and pipe
(code points 34, 60, 62, 92, 94, 96, 123, 124, 125). -/
def allowedIriChar (c : Char) : Bool :=
  32 < c.toNat && !([34, 60, 62, 92, 94, 96, 123, 124, 125].contains c.toNat)

/-- Scan the rest of an IRI scheme up to the colon. -/
def schemeScan : List Char → Bool
  | [] => false
  | c :: t =>
    if c = ':' then true
    else (c.isAlphanum || c = '+' || c = '-' || c = '.') && schemeScan t

/-- Conservative model of `oxiri`'s absolute-IRI validation: an alphabetic
scheme followed by a colon, with every character allowed. -/
def validIriChars : List Char → Bool
  | [] => false
  | c :: t => c.isAlpha && schemeScan t && (c :: t).all allowedIriChar

def validIri (s : String) : Bool := validIriChars s.data

/-- `oxrdf::NamedNode::new`: validate the IRI, returning it unchanged. -/
def NamedNode_new (s : String) : Option String :=
  if validIri s then some s else none

/-- Conservative model of a valid blank node label: nonempty, alphanumeric
or underscore. -/
def validBlankIdChars (l : List Char) : Bool :=
  !l.isEmpty && l.all (fun c => c.isAlphanum || c = '_')

/-- `oxrdf::BlankNode::from_str`: requires the `_:` sigil and a valid label. -/
def BlankNode_from_str (s : String) : Option String :=
  match s.data with
  | '_' :: ':' :: t => if validBlankIdChars t then some (String.mk t) else none
  | _ => none

/-- Read an IRI body up to the closing angle bracket. -/
def takeUntilGt : List Char → Option (List Char × List Char)
  | [] => none
  | c :: t =>
    if c = '>' then some ([], t)
    else (takeUntilGt t).map (fun r => (c :: r.1, r.2))

/-- Parse what follows the closing quote of a literal: nothing, `@tag`, or
`^^<datatype>`; an `xsd:string` datatype is normalized to a simple literal
as `oxrdf::Literal` construction does. -/
def parseSuffix : List Char → Option LitSuffix
  | [] => some .plain
  | '@' :: t => if validLangTag (String.mk t) then some (.lang (String.mk t)) else none
  | '^' :: '^' :: '<' :: t =>
    match takeUntilGt t with
    | none => none
    | some (dt, after) =>
      if after.isEmpty then
        if validIriChars dt then
          if String.mk dt = xsdString then some .plain else some (.typed (String.mk dt))
        else none
      else none
  | _ => none

/-- `oxrdf::Term::from_str` on the literal case (the only case
`hdt_bgp_str_to_term` reaches it with: the input starts with a quote). -/
def Term_from_str_literal (s : String) : Option Term :=
  match s.data with
  | '"' :: t =>
    match readQuoted t with
    | none => none
    | some (v, rest) => (parseSuffix rest).map (fun sfx => Term.literal (String.mk v) sfx)
  | _ => none

/-- `hdt_bgp_str_to_term` (sparql.rs): dispatch on the first character —
quote: literal via `Term::from_str`; underscore: blank node; otherwise URI
via `NamedNode::new`; every failure is an `InvalidData` error. -/
def hdt_bgp_str_to_term (s : String) : Except IoError Term :=
  match s.data with
  | [] => .error ⟨.invalidData, "empty input"⟩
  | c :: _ =>
    if c = '"' then
      match Term_from_str_literal s with
      | some t => .ok t
      | none => .error ⟨.invalidData, "literal parse error for " ++ s⟩
    else if c = '_' then
      match BlankNode_from_str s with
      | some id => .ok (.blankNode id)
      | none => .error ⟨.invalidData, "blanknode parse error for " ++ s⟩
    else
      match NamedNode_new s with
      | some iri => .ok (.namedNode iri)
      | none => .error ⟨.invalidData, "iri parse error for " ++ s⟩

/-- `internalize_term` (sparql.rs): `Ok(Arc::from(term_to_hdt_bgp_str(term)))`. -/
def internalize_term (t : Term) : Except IoError String :=
  .ok (term_to_hdt_bgp_str t)

/-- `externalize_term` (sparql.rs): delegates to `hdt_bgp_str_to_term`. -/
def externalize_term (s : String) : Except IoError Term :=
  hdt_bgp_str_to_term s

/-- Well-formedness of a term: valid IRI for URIs and datatypes (with the
canonical no-`xsd:string`-datatype invariant), valid label for blank nodes,
valid tag for language-tagged literals; literal values are unrestricted. -/
def wellFormedTerm : Term → Bool
  | .namedNode iri => validIri iri
  | .blankNode id => validBlankIdChars id.data
  | .literal _ sfx =>
    match sfx with
    | .plain => true
    | .lang t => validLangTag t
    | .typed dt => validIri dt && dt != xsdString

theorem strMk_data (s : String) : String.mk s.data = s := rfl

theorem readQuoted_escape (v : List Char) :
    ∀ rest : List Char, readQuoted (escapeChars v ++ '"' :: rest) = some (v, rest) := by
  induction v with
  | nil => intro rest; rw [escapeChars, List.nil_append, readQuoted]
  | cons c t ih =>
    intro rest
    by_cases h1 : c = '\\'
    · subst h1; simp [escapeChars, escChar, readQuoted, decodeEscape, ih]
    · by_cases h2 : c = '"'
      · subst h2; simp [escapeChars, escChar, readQuoted, decodeEscape, ih]
      · by_cases h3 : c = '\n'
        · subst h3; simp [escapeChars, escChar, readQuoted, decodeEscape, ih]
        · by_cases h4 : c = '\r'
          · subst h4; simp [escapeChars, escChar, readQuoted, decodeEscape, ih]
          · simp [escapeChars, escChar, h1, h2, h3, h4, readQuoted, ih]

theorem takeUntilGt_append (l : List Char) :
    ∀ r : List Char, (∀ c ∈ l, c ≠ '>') → takeUntilGt (l ++ '>' :: r) = some (l, r) := by
  induction l with
  | nil => intro r _; simp [takeUntilGt]
  | cons c t ih =>
    intro r hall
    have hc : c ≠ '>' := hall c (List.mem_cons_self c t)
    rw [List.cons_append]
    simp only [takeUntilGt]
    rw [if_neg hc, ih r (fun x hx => hall x (List.mem_cons_of_mem c hx))]
    rfl

theorem validIriChars_no_gt (l : List Char) (h : validIriChars l = true) :
    ∀ c ∈ l, c ≠ '>' := by
  intro c hc heq
  cases l with
  | nil => cases hc
  | cons a t =>
    rw [validIriChars, Bool.and_eq_true, Bool.and_eq_true] at h
    have hall := h.2
    rw [List.all_eq_true] at hall
    have := hall c hc
    subst heq
    simp [allowedIriChar] at this

theorem isAlpha_ne_quote_underscore (c : Char) (h : c.isAlpha = true) :
    c ≠ '"' ∧ c ≠ '_' := by
  constructor
  · intro heq; subst heq; simp [Char.isAlpha, Char.isUpper, Char.isLower] at h
  · intro heq; subst heq; simp [Char.isAlpha, Char.isUpper, Char.isLower] at h

/-- C3: internalizing a well-formed RDF term — URI, literal with or without
language tag or datatype, or blank node — and externalizing the result
returns the original term; the conversion is a lossless round-trip
(`externalize_term (term_to_hdt_bgp_str t) = Ok t`, and `internalize_term`
is exactly `Ok (term_to_hdt_bgp_str t)`). -/
theorem term_round_trip (t : Term) (h : wellFormedTerm t = true) :
    externalize_term (term_to_hdt_bgp_str t) = .ok t
      ∧ internalize_term t = .ok (term_to_hdt_bgp_str t) := by
  refine ⟨?_, rfl⟩
  rw [externalize_term]
  cases t with
  | namedNode iri =>
    rw [wellFormedTerm, validIri] at h
    rw [term_to_hdt_bgp_str]
    cases hd : iri.data with
    | nil => rw [hd] at h; cases h
    | cons c rest =>
      rw [hd] at h
      have halpha : c.isAlpha = true := by
        rw [validIriChars, Bool.and_eq_true, Bool.and_eq_true] at h
        exact h.1.1
      obtain ⟨hne1, hne2⟩ := isAlpha_ne_quote_underscore c halpha
      simp only [hdt_bgp_str_to_term, hd]
      rw [if_neg hne1, if_neg hne2]
      simp only [NamedNode_new, validIri, hd, h, if_true]
  | blankNode id =>
    rw [wellFormedTerm] at h
    rw [term_to_hdt_bgp_str]
    simp [hdt_bgp_str_to_term, BlankNode_from_str, h, strMk_data]
  | literal v sfx =>
    rw [term_to_hdt_bgp_str, literalToString]
    simp only [hdt_bgp_str_to_term, if_true]
    simp only [Term_from_str_literal]
    rw [readQuoted_escape v.data (suffixChars sfx)]
    cases sfx with
    | plain =>
      simp only [suffixChars, parseSuffix, Option.map, strMk_data]
    | lang tag =>
      have ht : validLangTag tag = true := by
        simpa [wellFormedTerm] using h
      simp only [suffixChars, parseSuffix, strMk_data, ht, if_true, Option.map]
    | typed dt =>
      rw [wellFormedTerm] at h
      have h1 : validIriChars dt.data = true := by
        rw [Bool.and_eq_true] at h
        exact h.1
      have h2 : dt ≠ xsdString := by
        rw [Bool.and_eq_true] at h
        simpa using h.2
      simp only [suffixChars, parseSuffix]
      rw [show dt.data ++ ['>'] = dt.data ++ '>' :: ([] : List Char) from rfl,
        takeUntilGt_append dt.data [] (validIriChars_no_gt dt.data h1)]
      simp only [List.isEmpty, h1, if_true, strMk_data, if_neg h2, Option.map]

/-- C3 witness: the round-trip holds at a language-tagged literal and at a
URI. -/
theorem term_round_trip_witness :
    wellFormedTerm (Term.literal "hi" (.lang "en")) = true
      ∧ externalize_term (term_to_hdt_bgp_str (Term.literal "hi" (.lang "en")))
          = .ok (Term.literal "hi" (.lang "en"))
      ∧ wellFormedTerm (Term.namedNode "http://example.com/a") = true
      ∧ externalize_term (term_to_hdt_bgp_str (Term.namedNode "http://example.com/a"))
          = .ok (Term.namedNode "http://example.com/a") :=
  ⟨by decide, (term_round_trip _ (by decide)).1, by decide,
    (term_round_trip _ (by decide)).1⟩

/-- C10: `hdt_bgp_str_to_term` (hence `externalize_term`) is total: the
empty string yields the `InvalidData` "empty input" error, and every error
it ever returns has kind `InvalidData` — no input panics. -/
theorem hdt_bgp_str_to_term_total :
    hdt_bgp_str_to_term "" = .error ⟨.invalidData, "empty input"⟩
      ∧ ∀ (s : String) (e : IoError),
          hdt_bgp_str_to_term s = .error e → e.kind = .invalidData := by
  refine ⟨rfl, ?_⟩
  intro s e h
  cases hd : s.data with
  | nil =>
    simp only [hdt_bgp_str_to_term, hd] at h
    injection h with h2
    rw [← h2]
  | cons c rest =>
    simp only [hdt_bgp_str_to_term, hd] at h
    split at h
    · split at h
      · exact absurd h (by simp)
      · injection h with h2; rw [← h2]
    · split at h
      · split at h
        · exact absurd h (by simp)
        · injection h with h2; rw [← h2]
      · split at h
        · exact absurd h (by simp)
        · injection h with h2; rw [← h2]

/-- C10 witness: a concrete malformed input (`_x`, no blank-node sigil)
produces an `InvalidData` error. -/
theorem hdt_bgp_str_to_term_total_witness :
    (IoError.mk .invalidData ("blanknode parse error for " ++ "_x")).kind
      = .invalidData :=
  hdt_bgp_str_to_term_total.2 "_x"
    ⟨.invalidData, "blanknode parse error for " ++ "_x"⟩ rfl

/-! ## SPARQL update evaluation (`evaluate_sparql_update`, `src/serve.rs`)

The update text has already been parsed by `spargebra` into a list of
`GraphUpdateOperation`s; the handler first validates every operation
against the current store, then — only if no operation was rejected —
executes them in order.  Side effects (graph registration and store-file
creation) are captured by threading a `RegState`. -/

structure HttpError where
  status : Nat
  msg : String
deriving DecidableEq, Repr

def bad_request (m : String) : HttpError := ⟨400, m⟩

def internal_server_error (m : String) : HttpError := ⟨500, m⟩

/-- `spargebra::term::GraphName`. -/
inductive GraphName where
  | namedNode (iri : String)
  | defaultGraph
deriving DecidableEq, Repr

/-- `spargebra::term::Quad`: only the graph component matters to the
validation and grouping logic. -/
structure UQuad where
  subject : String
  predicate : String
  object : String
  graph_name : GraphName
deriving DecidableEq, Repr

/-- `spargebra::GraphUpdateOperation` (the `Load` source is never used by
the handler and is omitted). -/
inductive GraphUpdateOperation where
  | create (graph : String) (silent : Bool)
  | insertData (data : List UQuad)
  | load (destination : GraphName) (silent : Bool)
  | deleteData (data : List UQuad)
  | deleteInsert
  | clearOp
  | dropOp
deriving DecidableEq, Repr

/-- Walk the quads of an `INSERT DATA`, collecting the distinct named
graphs in first-occurrence order (models the `HashSet`, whose iteration
order is unspecified) and rejecting the first default-graph quad. -/
def namedGraphsOf : List UQuad → List String → Except HttpError (List String)
  | [], acc => .ok acc
  | q :: rest, acc =>
    match q.graph_name with
    | .defaultGraph =>
      .error (bad_request
        "INSERT DATA to default graph is not allowed. Only named graphs are supported.")
    | .namedNode g =>
      namedGraphsOf rest (if acc.contains g then acc else acc ++ [g])

/-- The validation phase of `evaluate_sparql_update` for one operation,
checked against the store state as it was when the request arrived. -/
def validateOp (st : RegState) : GraphUpdateOperation → Option HttpError
  | .create g silent =>
    if contains_graph_name st g && !silent then
      some (bad_request ("Graph " ++ g ++ " already exists."))
    else none
  | .insertData data =>
    match namedGraphsOf data [] with
    | .error e => some e
    | .ok gs =>
      gs.findSome? (fun g =>
        if contains_graph_name st g then
          some (bad_request ("Graph " ++ g ++
            " already exists. INSERT DATA is only allowed to new graphs."))
        else none)
  | .load (.namedNode g) silent =>
    if contains_graph_name st g && !silent then
      some (bad_request ("Graph " ++ g ++
        " already exists. LOAD is only allowed to new graphs."))
    else none
  | .load .defaultGraph _ =>
    some (bad_request
      "LOAD to default graph is not allowed. Only named graphs can be created.")
  | .deleteData _ =>
    some (bad_request
      "DELETE DATA is not allowed. Only INSERT DATA to new graphs is permitted.")
  | .deleteInsert =>
    some (bad_request
      "DELETE/INSERT operations are not allowed. Only INSERT DATA to new graphs is permitted.")
  | .clearOp =>
    some (bad_request
      "CLEAR is not allowed. Only INSERT DATA to new graphs is permitted.")
  | .dropOp =>
    some (bad_request
      "DROP is not allowed. Only INSERT DATA to new graphs is permitted.")

/-- Run validation over the whole operation list; the first rejection wins. -/
def validateOps (st : RegState) (ops : List GraphUpdateOperation) : Option HttpError :=
  ops.findSome? (validateOp st)

/-- The quad grouping of the execution phase of `INSERT DATA`: distinct
named graphs in first-occurrence order (models the `HashMap` grouping,
whose iteration order is unspecified); default-graph quads are skipped —
validation has already excluded them. -/
def namedGraphsOnly : List UQuad → List String → List String
  | [], acc => acc
  | q :: rest, acc =>
    match q.graph_name with
    | .defaultGraph => namedGraphsOnly rest acc
    | .namedNode g => namedGraphsOnly rest (if acc.contains g then acc else acc ++ [g])

/-- The HDT file the execution of `INSERT DATA` creates for a graph: a
fresh temporary `.nt` file converted to `.hdt` by `insert_named_graph`;
the temporary name is random, so only its existence is modelled. -/
def tmpHdtPathFor (g : String) : String := "/tmp/" ++ g ++ ".hdt"

/-- `insert_named_graph` as invoked during execution: register the graph
under the converted file's path and create that file on disk. -/
def insertNamedGraphModel (st : RegState) (g : String) : RegState :=
  { mapping := insertAssoc st.mapping g (tmpHdtPathFor g),
    disk := tmpHdtPathFor g :: st.disk }

/-- The execution phase of `evaluate_sparql_update` for one operation. -/
def execOp (st : RegState) (op : GraphUpdateOperation) :
    RegState × Option HttpError :=
  match op with
  | .create g silent =>
    if contains_graph_name st g then
      if !silent then
        (st, some (bad_request ("Graph " ++ g ++ " already exists")))
      else (st, none)
    else (st, none)
  | .insertData data =>
    (( namedGraphsOnly data []).foldl insertNamedGraphModel st, none)
  | .load dest _ =>
    match dest with
    | .namedNode _ =>
      (st, some (bad_request
        "LOAD operation is not yet implemented. Please use INSERT DATA or the /store endpoint with PUT to add new graphs."))
    | .defaultGraph =>
      (st, some (bad_request "LOAD to default graph is not allowed"))
  | _ => (st, some (internal_server_error "Unexpected operation passed validation"))

/-- Execute operations in order, stopping at the first failure but keeping
the mutations already performed (the Rust store is mutated in place). -/
def execOps (st : RegState) : List GraphUpdateOperation → RegState × Option HttpError
  | [] => (st, none)
  | op :: rest =>
    match execOp st op with
    | (st2, none) => execOps st2 rest
    | (st2, some e) => (st2, some e)

/-- `evaluate_sparql_update` (serve.rs): validate every operation first;
a rejection returns the error with the store untouched, otherwise the
operations execute.  `none` in the second component models the
`204 No Content` success response. -/
def evaluate_sparql_update (st : RegState) (ops : List GraphUpdateOperation) :
    RegState × Option HttpError :=
  match validateOps st ops with
  | some e => (st, some e)
  | none => execOps st ops

theorem findSome?_prop {α β : Type} (f : α → Option β) (P : β → Prop)
    (hf : ∀ x b, f x = some b → P b) :
    ∀ (l : List α) (b : β), l.findSome? f = some b → P b := by
  intro l
  induction l with
  | nil => intro b h; cases h
  | cons a as ih =>
    intro b h
    rw [List.findSome?] at h
    cases hfa : f a with
    | some c => rw [hfa] at h; cases h; exact hf a b hfa
    | none => rw [hfa] at h; exact ih b h

theorem namedGraphsOf_error_status :
    ∀ (data : List UQuad) (acc : List String) (e : HttpError),
      namedGraphsOf data acc = .error e → e.status = 400 := by
  intro data
  induction data with
  | nil => intro acc e h; cases h
  | cons q rest ih =>
    intro acc e h
    rw [namedGraphsOf] at h
    cases hg : q.graph_name with
    | defaultGraph => rw [hg] at h; cases h; rfl
    | namedNode g => rw [hg] at h; exact ih _ e h

theorem validateOp_status (st : RegState) (op : GraphUpdateOperation)
    (e : HttpError) (h : validateOp st op = some e) : e.status = 400 := by
  cases op with
  | create g silent =>
    simp only [validateOp] at h
    split at h
    · cases h; rfl
    · cases h
  | insertData data =>
    simp only [validateOp] at h
    cases hng : namedGraphsOf data [] with
    | error e2 =>
      rw [hng] at h
      cases h
      exact namedGraphsOf_error_status data [] e hng
    | ok gs =>
      rw [hng] at h
      refine findSome?_prop _ (fun b => b.status = 400) ?_ gs e h
      intro g b hb
      split at hb
      · cases hb; rfl
      · cases hb
  | load dest silent =>
    cases dest with
    | namedNode g =>
      simp only [validateOp] at h
      split at h
      · cases h; rfl
      · cases h
    | defaultGraph =>
      simp only [validateOp] at h
      cases h; rfl
  | deleteData d => cases h; rfl
  | deleteInsert => cases h; rfl
  | clearOp => cases h; rfl
  | dropOp => cases h; rfl

theorem validateOps_status (st : RegState) (ops : List GraphUpdateOperation)
    (e : HttpError) (h : validateOps st ops = some e) : e.status = 400 :=
  findSome?_prop (validateOp st) (fun b => b.status = 400)
    (validateOp_status st) ops e h

theorem validateOps_some_of_deleteData (st : RegState)
    (ops : List GraphUpdateOperation) (d : List UQuad)
    (hmem : GraphUpdateOperation.deleteData d ∈ ops) :
    ∃ e, validateOps st ops = some e := by
  induction ops with
  | nil => cases hmem
  | cons op rest ih =>
    rw [validateOps, List.findSome?]
    cases hop : validateOp st op with
    | some e => exact ⟨e, rfl⟩
    | none =>
      rcases List.mem_cons.mp hmem with heq | hmem2
      · subst heq; cases hop
      · exact ih hmem2

/-- C2: every operation of a `POST /update` request is validated against
the current store before any operation executes; a validation rejection
makes the whole request fail with a `BadRequest` (status 400) carrying the
rejection's reason and leaves the store state — registered graphs and disk
files alike — exactly as it was; the execution phase runs only when every
operation was accepted. -/
theorem evaluate_sparql_update_fail_fast (st : RegState)
    (ops : List GraphUpdateOperation) :
    (∀ e, validateOps st ops = some e →
        evaluate_sparql_update st ops = (st, some e) ∧ e.status = 400)
      ∧ (validateOps st ops = none →
          evaluate_sparql_update st ops = execOps st ops) := by
  constructor
  · intro e h
    rw [evaluate_sparql_update, h]
    exact ⟨rfl, validateOps_status st ops e h⟩
  · intro h
    rw [evaluate_sparql_update, h]

/-- C2 witness: a batch whose second operation is a rejected `DELETE DATA`
fails with the specific 400 reason and leaves the store untouched. -/
theorem evaluate_sparql_update_fail_fast_witness :
    evaluate_sparql_update ⟨[("file:///g.hdt", "/g.hdt")], ["/g.hdt"]⟩
        [.create "file:///new" true, .deleteData []]
        = (⟨[("file:///g.hdt", "/g.hdt")], ["/g.hdt"]⟩,
            some (bad_request
              "DELETE DATA is not allowed. Only INSERT DATA to new graphs is permitted."))
      ∧ (bad_request
          "DELETE DATA is not allowed. Only INSERT DATA to new graphs is permitted.").status
        = 400 :=
  (evaluate_sparql_update_fail_fast ⟨[("file:///g.hdt", "/g.hdt")], ["/g.hdt"]⟩
    [.create "file:///new" true, .deleteData []]).1 _ rfl

/-- C5 counterexample: a request containing `DELETE DATA` fails with
status 400, not the claimed 403. -/
theorem delete_data_status_is_400_not_403 :
    (evaluate_sparql_update ⟨[], []⟩ [.deleteData []]).2
        = some ⟨400,
            "DELETE DATA is not allowed. Only INSERT DATA to new graphs is permitted."⟩
      ∧ (400 : Nat) ≠ 403 :=
  ⟨rfl, by decide⟩

/-- C5 (amended): every update request containing a `DELETE DATA` operation
fails with HTTP status 400 (`BadRequest`, not 403) and produces zero side
effects — the registry mapping and the disk are returned unchanged —
regardless of the other operations in the request. -/
theorem delete_data_rejected_400 (st : RegState)
    (ops : List GraphUpdateOperation) (d : List UQuad)
    (hmem : GraphUpdateOperation.deleteData d ∈ ops) :
    ∃ msg, evaluate_sparql_update st ops = (st, some ⟨400, msg⟩) := by
  obtain ⟨e, he⟩ := validateOps_some_of_deleteData st ops d hmem
  have h400 := validateOps_status st ops e he
  rw [evaluate_sparql_update, he]
  cases e with
  | mk s2 m =>
    simp only [HttpError.mk.injEq] at h400 ⊢
    exact ⟨m, by rw [h400]⟩

/-- C5 witness: a two-operation request with a trailing `DELETE DATA`
fails with 400 and leaves a nonempty store fully unchanged. -/
theorem delete_data_rejected_400_witness :
    ∃ msg, evaluate_sparql_update ⟨[("file:///g.hdt", "/g.hdt")], ["/g.hdt"]⟩
        [.create "file:///other" true, .deleteData []]
        = (⟨[("file:///g.hdt", "/g.hdt")], ["/g.hdt"]⟩, some ⟨400, msg⟩) :=
  delete_data_rejected_400 _ _ [] (by decide)

/-! ## Conversion pipeline (`files_to_rdf`, `src/create.rs`)

`files_to_rdf` walks the input paths, collecting native `.nt` files,
converting recognized formats into the temporary output file, and listing
inputs it cannot interpret.  The file system is modelled by `pathExists`;
`parseFile` models opening and parsing a convertible input (its triples are
serialized into the output file, which none of the returned values
observe, so only success or failure is modelled). -/

/-- The recognized convertible extensions (`.nq`, `.ttl`, `.n3`, `.xml`,
`.trig`), per the `else if` chain selecting `rdf_format`. -/
def convertibleExt (f : String) : Bool :=
  isSuf ".nq".data f.data || isSuf ".ttl".data f.data || isSuf ".n3".data f.data
    || isSuf ".xml".data f.data || isSuf ".trig".data f.data

/-- Accumulator of the input loop of `files_to_rdf`: the collected `.nt`
files, the number of converted files, and the unrecognized inputs. -/
structure ConvState where
  ntFiles : List String
  converted : Nat
  unrecognized : List String
deriving DecidableEq, Repr

/-- The input loop of `files_to_rdf`: missing inputs are recorded as
unrecognized; `.nt` inputs are collected; convertible inputs are parsed
(a parse or open failure aborts the whole call via `?`); anything else is
recorded as unrecognized. -/
def filesLoop (pathExists : String → Bool) (parseFile : String → Except String Unit) :
    List String → ConvState → Except String ConvState
  | [], s => .ok s
  | f :: rest, s =>
    if !pathExists f then
      filesLoop pathExists parseFile rest
        { s with unrecognized := s.unrecognized ++ [f] }
    else if isSuf ".nt".data f.data then
      filesLoop pathExists parseFile rest { s with ntFiles := s.ntFiles ++ [f] }
    else if convertibleExt f then
      match parseFile f with
      | .error e => .error e
      | .ok _ =>
        filesLoop pathExists parseFile rest { s with converted := s.converted + 1 }
    else
      filesLoop pathExists parseFile rest
        { s with unrecognized := s.unrecognized ++ [f] }

/-- `files_to_rdf` (create.rs): after the loop, more than one `.nt` file or
any conversion means the `.nt` files are copied into the output file and
its path is returned; exactly one `.nt` file with no conversion returns
`data[0]` (the single-file reuse optimization); otherwise the output path
is returned.  The second component is the unrecognized-input list. -/
def files_to_rdf (pathExists : String → Bool)
    (parseFile : String → Except String Unit) (outPath : String)
    (data : List String) : Except String (String × List String) :=
  match filesLoop pathExists parseFile data ⟨[], 0, []⟩ with
  | .error e => .error e
  | .ok s =>
    if s.ntFiles.length > 1 || s.converted ≠ 0 then .ok (outPath, s.unrecognized)
    else if s.ntFiles.length = 1 && s.converted = 0 then .ok (data.headD "", s.unrecognized)
    else .ok (outPath, s.unrecognized)

/-- C7: evaluating `files_to_rdf` at inputs with exactly one `.nt` file and
nothing converted.  When an uninterpretable input precedes the `.nt` file,
the function returns `data[0]` — the uninterpretable path, not the `.nt`
file the single-file optimization intends to reuse; when the `.nt` file is
the sole input, the optimization returns it as described. -/
theorem files_to_rdf_first_input_bug :
    files_to_rdf (fun p => p == "b.nt") (fun _ => .ok ()) "/tmp/out.nt"
        ["ghost.xyz", "b.nt"] = .ok ("ghost.xyz", ["ghost.xyz"])
      ∧ ("ghost.xyz" : String) ≠ "b.nt"
      ∧ files_to_rdf (fun p => p == "b.nt") (fun _ => .ok ()) "/tmp/out.nt"
          ["b.nt"] = .ok ("b.nt", []) :=
  ⟨rfl, by decide, rfl⟩

/-! ## Content negotiation (`content_negotiation`, `src/serve.rs`)

The handler walks the comma-separated `Accept` media ranges keeping the
best-scoring resolvable range.  The `f32` q-weight is modelled exactly on
finite decimals as `num / 10 ^ exp` with integer cross-multiplication for
comparison (`inf`, `NaN` and exponent forms of `f32::from_str` are not
modelled); the format type `F`, the exact format registry `parse` and the
default-per-base table are parameters, as in the Rust generic. -/

/-- A q-weight: the rational `num / 10 ^ exp`. -/
structure Score where
  num : Int
  exp : Nat
deriving DecidableEq, Repr

/-- The rational value of a score. -/
def Score.val (a : Score) : ℚ := (a.num : ℚ) / (10 : ℚ) ^ a.exp

/-- Score comparison by integer cross-multiplication (kernel-computable). -/
def qle (a b : Score) : Bool :=
  decide (a.num * (10 : Int) ^ b.exp ≤ b.num * (10 : Int) ^ a.exp)

/-- The initial `result_score = 0.0`. -/
def score0 : Score := ⟨0, 0⟩

/-- The default q-weight `1.0`. -/
def score1 : Score := ⟨1, 0⟩

def natOfDigits (l : List Char) : Nat :=
  l.foldl (fun acc c => 10 * acc + (c.toNat - 48)) 0

/-- Parse an unsigned decimal (digits, optionally split by one point; at
least one digit). -/
def parseUnsigned (sign : Int) (l : List Char) : Option Score :=
  match splitOnceChars '.' l with
  | none =>
    if !l.isEmpty && l.all Char.isDigit then some ⟨sign * natOfDigits l, 0⟩
    else none
  | some (ip, fp) =>
    if (!ip.isEmpty || !fp.isEmpty) && ip.all Char.isDigit && fp.all Char.isDigit then
      some ⟨sign * natOfDigits (ip ++ fp), fp.length⟩
    else none

/-- Models `f32::from_str` on the finite decimal forms. -/
def parseF32Score (l : List Char) : Option Score :=
  match l with
  | '+' :: t => parseUnsigned 1 t
  | '-' :: t => parseUnsigned (-1) t
  | _ => parseUnsigned 1 l

/-- `str::eq_ignore_ascii_case`. -/
def eqIgnoreAsciiCase (a b : List Char) : Bool :=
  (a.map Char.toLower) == (b.map Char.toLower)

/-- The q-weight extraction of `content_negotiation`: only the last
`;`-separated parameter is inspected; when it is `q=value` the value is
parsed (a malformed value fails the whole request) and the media range is
everything before it; otherwise the score defaults to 1. -/
def parseEntryScore (possible : String) : Except HttpError (String × Score) :=
  match rsplitOnceChars ';' possible.data with
  | none => .ok (possible, score1)
  | some (possible_type, last_parameter) =>
    match splitOnceChars '=' last_parameter with
    | none => .ok (possible, score1)
    | some (nm, value) =>
      if eqIgnoreAsciiCase (trimChars nm) ['q'] then
        match parseF32Score (trimChars value) with
        | some sc => .ok (String.mk possible_type, sc)
        | none =>
          .error (bad_request ("Invalid Accept media type score: " ++ String.mk value))
      else .ok (possible, score1)

/-- The resolution of one media range: split base and subtype at the first
slash of the first `;`-segment (no slash is a `BadRequest`); `*/*` is the
endpoint default; `base/*` goes through the default-per-base table (last
match wins); an explicit subtype goes through the exact format registry,
which receives the q-stripped but otherwise unmodified range text. -/
def resolveRange {F : Type} (parse : String → Option F) (dflt : F)
    (dbb : List (String × F)) (possible : String) : Except HttpError (Option F) :=
  let media :=
    match splitOnceChars ';' possible.data with
    | some r => r.1
    | none => possible.data
  match splitOnceChars '/' media with
  | none => .error (bad_request ("Invalid media type: " ++ possible))
  | some (b, sb) =>
    let pbase := trimChars b
    let psub := trimChars sb
    if pbase == ['*'] && psub == ['*'] then .ok (some dflt)
    else if psub == ['*'] then
      .ok (dbb.foldl (fun acc e => if e.1.data == pbase then some e.2 else acc) none)
    else .ok (parse possible)

def notAcceptable : HttpError :=
  ⟨406, "The accept header does not provide any accepted format"⟩

/-- The loop of `content_negotiation` over the header's media ranges,
carrying the best resolvable format and its score: an entry is skipped
when its score does not exceed the best score so far (invalid media types
hidden this way are never inspected); a resolvable better entry replaces
the result. -/
def cnGo {F : Type} (parse : String → Option F) (dflt : F) (dbb : List (String × F)) :
    List String → Option F → Score → Except HttpError F
  | [], result, _ =>
    match result with
    | some f => .ok f
    | none => .error notAcceptable
  | possible :: rest, result, result_score =>
    match parseEntryScore possible with
    | .error e => .error e
    | .ok (possible2, score) =>
      if qle score result_score then cnGo parse dflt dbb rest result result_score
      else
        match resolveRange parse dflt dbb possible2 with
        | .error e => .error e
        | .ok none => cnGo parse dflt dbb rest result result_score
        | .ok (some f) => cnGo parse dflt dbb rest (some f) score

def headerEntries (header : String) : List String :=
  (splitChars ',' header.data).map String.mk

/-- `content_negotiation` (serve.rs): an empty (or absent) `Accept` header
selects the endpoint default, otherwise the loop runs over the
comma-separated ranges from result `none` and score `0.0`. -/
def content_negotiation {F : Type} (parse : String → Option F) (dflt : F)
    (dbb : List (String × F)) (header : String) : Except HttpError F :=
  if header.isEmpty then .ok dflt
  else cnGo parse dflt dbb (headerEntries header) none score0

/-- One header entry as the claim describes it: its resolved format (if
any) and its q-weight. -/
def entryPair {F : Type} (parse : String → Option F) (dflt : F)
    (dbb : List (String × F)) (e : String) : Except HttpError (Option F × Score) :=
  match parseEntryScore e with
  | .error er => .error er
  | .ok (r, q) =>
    match resolveRange parse dflt dbb r with
    | .error er => .error er
    | .ok f? => .ok (f?, q)

/-- The resolvable entries of a header with their weights, in header order. -/
def allPairs {F : Type} (parse : String → Option F) (dflt : F)
    (dbb : List (String × F)) : List String → Except HttpError (List (F × Score))
  | [] => .ok []
  | e :: rest =>
    match entryPair parse dflt dbb e with
    | .error er => .error er
    | .ok (none, _) => allPairs parse dflt dbb rest
    | .ok (some f, q) =>
      match allPairs parse dflt dbb rest with
      | .error er => .error er
      | .ok l => .ok ((f, q) :: l)

/-- The first entry whose weight is maximal (ties: first-seen wins). -/
def firstArgmax {F : Type} (l : List (F × Score)) : Option F :=
  (l.find? (fun x => l.all (fun y => qle y.2 x.2))).map Prod.fst

/-- The first entry whose weight exceeds `sc` and is maximal. -/
def firstArgmaxAbove {F : Type} (sc : Score) (l : List (F × Score)) : Option F :=
  (l.find? (fun x => !qle x.2 sc && l.all (fun y => qle y.2 x.2))).map Prod.fst

/-- Verbatim formalization of the claim's selection rule: among the
resolvable media ranges, choose the one with the highest q weight
(first-seen on ties); none resolvable is `NotAcceptable`; an empty header
selects the default. -/
def claimSelect {F : Type} (parse : String → Option F) (dflt : F)
    (dbb : List (String × F)) (header : String) : Except HttpError F :=
  if header.isEmpty then .ok dflt
  else
    match allPairs parse dflt dbb (headerEntries header) with
    | .error e => .error e
    | .ok pairs =>
      match firstArgmax pairs with
      | some f => .ok f
      | none => .error notAcceptable

/-- The claim's selection rule amended with the positivity condition: only
ranges with a strictly positive q weight are ever selected. -/
def claimSelectPos {F : Type} (parse : String → Option F) (dflt : F)
    (dbb : List (String × F)) (header : String) : Except HttpError F :=
  if header.isEmpty then .ok dflt
  else
    match allPairs parse dflt dbb (headerEntries header) with
    | .error e => .error e
    | .ok pairs =>
      match firstArgmaxAbove score0 pairs with
      | some f => .ok f
      | none => .error notAcceptable

/-- Well-formedness of a header: every comma-separated entry has a
parseable q-weight (when given) and a base/subtype shape. -/
def wfHeader {F : Type} (parse : String → Option F) (dflt : F)
    (dbb : List (String × F)) (header : String) : Bool :=
  (headerEntries header).all (fun e =>
    match entryPair parse dflt dbb e with
    | .ok _ => true
    | .error _ => false)

/-- A small concrete format type for counterexample and witness. -/
inductive Fmt where
  | json
  | csv
deriving DecidableEq, Repr

/-- A concrete exact format registry. -/
def parseFmt : String → Option Fmt :=
  fun s => if s = "application/json" then some .json
    else if s = "text/csv" then some .csv else none

/-- A concrete default-per-base table. -/
def fmtTable : List (String × Fmt) := [("application", Fmt.json), ("text", Fmt.csv)]

/-- C6 counterexample: on the well-formed header `text/csv;q=0` the code
returns `NotAcceptable` (the entry's score 0 never exceeds the initial
best score 0.0), while the claim's highest-q-wins rule selects `text/csv`
— the claim as stated is false for zero (or negative) weights. -/
theorem content_negotiation_q0_counterexample :
    wfHeader parseFmt Fmt.json fmtTable "text/csv;q=0" = true
      ∧ content_negotiation parseFmt Fmt.json fmtTable "text/csv;q=0"
          = .error notAcceptable
      ∧ claimSelect parseFmt Fmt.json fmtTable "text/csv;q=0" = .ok Fmt.csv :=
  ⟨rfl, rfl, rfl⟩

theorem val_le_iff (a b : Score) :
    a.val ≤ b.val ↔ a.num * (10 : Int) ^ b.exp ≤ b.num * (10 : Int) ^ a.exp := by
  rw [Score.val, Score.val, div_le_div_iff₀ (by positivity) (by positivity)]
  constructor
  · intro h; exact_mod_cast h
  · intro h; exact_mod_cast h

theorem qle_true_iff (a b : Score) : qle a b = true ↔ a.val ≤ b.val := by
  rw [qle, decide_eq_true_eq]
  exact (val_le_iff a b).symm

theorem qle_refl (a : Score) : qle a a = true := by
  rw [qle_true_iff]

theorem qle_trans {a b c : Score} (h1 : qle a b = true) (h2 : qle b c = true) :
    qle a c = true := by
  rw [qle_true_iff] at h1 h2 ⊢
  exact le_trans h1 h2

theorem qle_total {a b : Score} (h : qle a b = false) : qle b a = true := by
  rw [Bool.eq_false_iff, Ne, qle_true_iff] at h
  rw [qle_true_iff]
  exact le_of_not_le h

theorem find?_congr {α : Type} (p q : α → Bool) :
    ∀ l : List α, (∀ x ∈ l, p x = q x) → l.find? p = l.find? q := by
  intro l
  induction l with
  | nil => intro _; rfl
  | cons a t ih =>
    intro h
    simp only [List.find?, h a (List.mem_cons_self a t)]
    cases hq : q a with
    | true => rfl
    | false => exact ih (fun x hx => h x (List.mem_cons_of_mem a hx))

theorem exists_qle_max {F : Type} :
    ∀ l : List (F × Score), l ≠ [] → ∃ x ∈ l, ∀ z ∈ l, qle z.2 x.2 = true := by
  intro l
  induction l with
  | nil => intro h; exact absurd rfl h
  | cons a t ih =>
    intro _
    cases t with
    | nil =>
      refine ⟨a, List.mem_cons_self a [], ?_⟩
      intro z hz
      rcases List.mem_cons.mp hz with heq | hz2
      · subst heq; exact qle_refl _
      · cases hz2
    | cons b u =>
      obtain ⟨m, hm, hmax⟩ := ih (by simp)
      by_cases hc : qle a.2 m.2 = true
      · refine ⟨m, List.mem_cons_of_mem a hm, ?_⟩
        intro z hz
        rcases List.mem_cons.mp hz with heq | hz2
        · subst heq; exact hc
        · exact hmax z hz2
      · have hc2 := qle_total (Bool.eq_false_iff.mpr hc)
        refine ⟨a, List.mem_cons_self a (b :: u), ?_⟩
        intro z hz
        rcases List.mem_cons.mp hz with heq | hz2
        · subst heq; exact qle_refl _
        · exact qle_trans (hmax z hz2) hc2

/-- The loop of `content_negotiation` restricted to the already-resolved
entries: the shape the claim's selection rule is compared against. -/
def goPairs {F : Type} : List (F × Score) → Option F → Score → Except HttpError F
  | [], result, _ =>
    match result with
    | some f => .ok f
    | none => .error notAcceptable
  | (f, q) :: rest, result, sc =>
    if qle q sc then goPairs rest result sc else goPairs rest (some f) q

theorem goPairs_argmax {F : Type} :
    ∀ (l : List (F × Score)) (res : Option F) (sc : Score),
      goPairs l res sc
        = match firstArgmaxAbove sc l with
          | some f => Except.ok f
          | none =>
            match res with
            | some f => Except.ok f
            | none => Except.error notAcceptable := by
  intro l
  induction l with
  | nil =>
    intro res sc
    cases res <;> rfl
  | cons hd t ih =>
    intro res sc
    obtain ⟨f, q⟩ := hd
    rw [goPairs]
    by_cases hq : qle q sc = true
    · rw [if_pos hq, ih]
      have hcong : firstArgmaxAbove sc ((f, q) :: t) = firstArgmaxAbove sc t := by
        rw [firstArgmaxAbove, firstArgmaxAbove]
        simp only [List.find?]
        have hhead : (!qle q sc && ((f, q) :: t).all (fun y => qle y.2 q)) = false := by
          rw [hq]
          rfl
        rw [hhead]
        have hcg := find?_congr
          (fun x : F × Score => !qle x.2 sc && ((f, q) :: t).all (fun y => qle y.2 x.2))
          (fun x : F × Score => !qle x.2 sc && t.all (fun y => qle y.2 x.2)) t ?_
        · rw [hcg]
        · intro x _
          cases hxs : qle x.2 sc with
          | true => simp [hxs]
          | false =>
            have hscx := qle_total hxs
            have hqx : qle q x.2 = true := qle_trans hq hscx
            simp [List.all_cons, hqx]
      rw [hcong]
    · have hq2 : qle q sc = false := Bool.eq_false_iff.mpr hq
      rw [if_neg hq, ih]
      by_cases hall : t.all (fun y => qle y.2 q) = true
      · have hfind : firstArgmaxAbove sc ((f, q) :: t) = some f := by
          rw [firstArgmaxAbove]
          simp only [List.find?]
          have hhead : (!qle q sc && ((f, q) :: t).all (fun y => qle y.2 q)) = true := by
            rw [hq2, List.all_cons, qle_refl, hall]
            rfl
          rw [hhead]
          rfl
        have hnone : firstArgmaxAbove q t = none := by
          rw [firstArgmaxAbove]
          have : t.find? (fun x => !qle x.2 q && t.all (fun y => qle y.2 x.2)) = none := by
            rw [List.find?_eq_none]
            intro x hx
            have hxq := List.all_eq_true.mp hall x hx
            simp [hxq]
          rw [this]
          rfl
        rw [hfind, hnone]
      · have hallf : t.all (fun y => qle y.2 q) = false := Bool.eq_false_iff.mpr hall
        obtain ⟨y, hy, hyq⟩ : ∃ y ∈ t, qle y.2 q = false := by
          by_contra hcon
          push_neg at hcon
          have : t.all (fun y => qle y.2 q) = true := by
            rw [List.all_eq_true]
            intro x hx
            have := hcon x hx
            cases hxv : qle x.2 q with
            | true => rfl
            | false => exact absurd hxv this
          rw [this] at hallf
          cases hallf
        have hcong : firstArgmaxAbove sc ((f, q) :: t) = firstArgmaxAbove q t := by
          rw [firstArgmaxAbove, firstArgmaxAbove]
          simp only [List.find?]
          have hhead : (!qle q sc && ((f, q) :: t).all (fun y => qle y.2 q)) = false := by
            rw [List.all_cons, hallf]
            simp
          rw [hhead]
          have hcg := find?_congr
            (fun x : F × Score => !qle x.2 sc && ((f, q) :: t).all (fun y => qle y.2 x.2))
            (fun x : F × Score => !qle x.2 q && t.all (fun y => qle y.2 x.2)) t ?_
          · rw [hcg]
          · intro x _
            cases hta : t.all (fun y => qle y.2 x.2) with
            | false => simp [List.all_cons, hta]
            | true =>
              have hyx := List.all_eq_true.mp hta y hy
              have hxq : qle x.2 q = false := by
                cases hv : qle x.2 q with
                | false => rfl
                | true =>
                  have := qle_trans hyx hv
                  rw [this] at hyq
                  cases hyq
              have hqx := qle_total hxq
              have hxsc : qle x.2 sc = false := by
                cases hv : qle x.2 sc with
                | false => rfl
                | true =>
                  have hscq := qle_total hq2
                  have := qle_trans hv hscq
                  rw [this] at hxq
                  cases hxq
              simp [List.all_cons, hta, hxq, hqx, hxsc]
        rw [hcong]
        obtain ⟨g, hg⟩ : ∃ g, firstArgmaxAbove q t = some g := by
          obtain ⟨m, hm, hmax⟩ := exists_qle_max t (List.ne_nil_of_mem hy)
          have hmq : qle m.2 q = false := by
            cases hv : qle m.2 q with
            | false => rfl
            | true =>
              have := qle_trans (hmax y hy) hv
              rw [this] at hyq
              cases hyq
          have hpred : (!qle m.2 q && t.all (fun y => qle y.2 m.2)) = true := by
            rw [hmq, List.all_eq_true.mpr hmax]
            rfl
          have hsome : (t.find? fun x => !qle x.2 q && t.all fun y => qle y.2 x.2).isSome := by
            rw [List.find?_isSome]
            exact ⟨m, hm, hpred⟩
          rw [firstArgmaxAbove]
          cases hfv : t.find? fun x => !qle x.2 q && t.all fun y => qle y.2 x.2 with
          | none => rw [hfv] at hsome; cases hsome
          | some w => exact ⟨w.1, rfl⟩
        rw [hg]

/-- The pair an entry contributes to the resolved list: `none` when its
range matches no supported format. -/
def toPair {F : Type} (parse : String → Option F) (dflt : F)
    (dbb : List (String × F)) (e : String) : Option (F × Score) :=
  match entryPair parse dflt dbb e with
  | .ok (some f, q) => some (f, q)
  | _ => none

theorem wfHeader_forall {F : Type} (parse : String → Option F) (dflt : F)
    (dbb : List (String × F)) (header : String)
    (h : wfHeader parse dflt dbb header = true) :
    ∀ e ∈ headerEntries header, ∃ v, entryPair parse dflt dbb e = .ok v := by
  rw [wfHeader, List.all_eq_true] at h
  intro e he
  have h2 := h e he
  cases hv : entryPair parse dflt dbb e with
  | ok v => exact ⟨v, rfl⟩
  | error er => rw [hv] at h2; cases h2

theorem cnGo_eq_goPairs {F : Type} (parse : String → Option F) (dflt : F)
    (dbb : List (String × F)) :
    ∀ (es : List String) (res : Option F) (sc : Score),
      (∀ e ∈ es, ∃ v, entryPair parse dflt dbb e = .ok v) →
      cnGo parse dflt dbb es res sc
        = goPairs (es.filterMap (toPair parse dflt dbb)) res sc := by
  intro es
  induction es with
  | nil => intro res sc _; rfl
  | cons e rest ih =>
    intro res sc hwf
    obtain ⟨v, hv⟩ := hwf e (List.mem_cons_self e rest)
    obtain ⟨f?, q⟩ := v
    have hrest := fun x hx => hwf x (List.mem_cons_of_mem e hx)
    cases hp : parseEntryScore e with
    | error er =>
      have h2 : entryPair parse dflt dbb e = .error er := by
        simp only [entryPair, hp]
      rw [h2] at hv
      cases hv
    | ok rq =>
      obtain ⟨r, q'⟩ := rq
      cases hr : resolveRange parse dflt dbb r with
      | error er =>
        have h2 : entryPair parse dflt dbb e = .error er := by
          simp only [entryPair, hp, hr]
        rw [h2] at hv
        cases hv
      | ok f2 =>
        have h2 : entryPair parse dflt dbb e = .ok (f2, q') := by
          simp only [entryPair, hp, hr]
        rw [h2] at hv
        have hfq : f2 = f? ∧ q' = q := by
          simp only [Except.ok.injEq, Prod.mk.injEq] at hv
          exact hv
        obtain ⟨hf2, hq'⟩ := hfq
        subst hf2
        subst hq'
        clear hv
        simp only [cnGo, hp]
        cases f2 with
        | none =>
          have htp : toPair parse dflt dbb e = none := by
            rw [toPair, h2]
          rw [List.filterMap_cons, htp]
          by_cases hqc : qle q' sc = true
          · rw [if_pos hqc]
            exact ih res sc hrest
          · rw [if_neg hqc, hr]
            exact ih res sc hrest
        | some f =>
          have htp : toPair parse dflt dbb e = some (f, q') := by
            rw [toPair, h2]
          rw [List.filterMap_cons, htp, goPairs]
          by_cases hqc : qle q' sc = true
          · rw [if_pos hqc, if_pos hqc]
            exact ih res sc hrest
          · rw [if_neg hqc, if_neg hqc, hr]
            exact ih (some f) q' hrest

theorem allPairs_eq_filterMap {F : Type} (parse : String → Option F) (dflt : F)
    (dbb : List (String × F)) :
    ∀ es : List String,
      (∀ e ∈ es, ∃ v, entryPair parse dflt dbb e = .ok v) →
      allPairs parse dflt dbb es = .ok (es.filterMap (toPair parse dflt dbb)) := by
  intro es
  induction es with
  | nil => intro _; rfl
  | cons e rest ih =>
    intro hwf
    obtain ⟨v, hv⟩ := hwf e (List.mem_cons_self e rest)
    obtain ⟨f?, q⟩ := v
    have hrest := fun x hx => hwf x (List.mem_cons_of_mem e hx)
    rw [allPairs, hv]
    cases f? with
    | none =>
      have htp : toPair parse dflt dbb e = none := by
        rw [toPair, hv]
      rw [List.filterMap_cons, htp]
      exact ih hrest
    | some f =>
      have htp : toPair parse dflt dbb e = some (f, q) := by
        rw [toPair, hv]
      rw [List.filterMap_cons, htp, ih hrest]

/-- C6 (amended): on a well-formed `Accept` header, `content_negotiation`
behaves exactly as the claim's rule amended with strict positivity: among
the comma-separated media ranges it selects the one with the highest
q weight strictly greater than zero (q defaults to 1.0; first-seen wins
ties), resolving `*/*` to the endpoint default, `base/*` through the
default-per-base table and explicit subtypes through the exact format
registry; an empty or absent header selects the default, and a header in
which no range both matches a supported format and carries a positive
weight fails with `NotAcceptable` (406). -/
theorem content_negotiation_claim {F : Type} (parse : String → Option F)
    (dflt : F) (dbb : List (String × F)) (header : String)
    (hwf : wfHeader parse dflt dbb header = true) :
    content_negotiation parse dflt dbb header
      = claimSelectPos parse dflt dbb header := by
  have hfa := wfHeader_forall parse dflt dbb header hwf
  rw [content_negotiation, claimSelectPos]
  by_cases hh : header.isEmpty
  · rw [if_pos hh, if_pos hh]
  · rw [if_neg hh, if_neg hh]
    rw [cnGo_eq_goPairs parse dflt dbb _ none score0 hfa]
    rw [allPairs_eq_filterMap parse dflt dbb _ hfa]
    rw [goPairs_argmax]

/-- C6 witness: on a well-formed two-range header the negotiation equals
the claim's amended selection rule, and picks the default-weight
`application/json` over `text/csv;q=0.5`. -/
theorem content_negotiation_claim_witness :
    wfHeader parseFmt Fmt.json fmtTable "application/json, text/csv;q=0.5" = true
      ∧ content_negotiation parseFmt Fmt.json fmtTable
            "application/json, text/csv;q=0.5"
          = claimSelectPos parseFmt Fmt.json fmtTable
            "application/json, text/csv;q=0.5"
      ∧ content_negotiation parseFmt Fmt.json fmtTable
            "application/json, text/csv;q=0.5"
          = .ok Fmt.json :=
  ⟨rfl, content_negotiation_claim parseFmt Fmt.json fmtTable _ rfl, rfl⟩

end De
